import Mathlib

/-!
Formalisation of the multilayer-perceptron implementation in
`exercise-02/network.py`.

Modelling conventions:
* numpy 2-D arrays (batches, weight matrices) are `Mat := List (List ℚ)`;
  1-D arrays (bias vectors, gradients of biases) are `List ℚ`; floating
  point numbers are modelled by exact rationals.
* `np.exp` is modelled by an abstract function `e : ℚ → ℚ` passed to the
  operations that need it; the facts the claims use (positivity of the
  exponential) become explicit hypotheses.
* Python attribute mutation (`self.input = ...`) is modelled by explicit
  state passing: each layer is a structure holding its parameters and its
  caches, and each method returns the updated structure.  Attributes that
  do not exist until first assignment (`self.input`, `self.grad_B`,
  `self.grad_b`) are structure fields whose initial value is arbitrary
  (the constructor puts `[]` there).
* `np.random` (weight initialisation, epoch permutations) is an external
  random source; its draws are supplied as explicit arguments.
* Operations that raise in Python (indexing an empty list, calling the
  one-argument `backward` on an `OutputLayer`) return `none`.
-/

abbrev Mat : Type := List (List ℚ)

/-- Dot product of two vectors (`np.dot` on 1-D arrays). -/
def dot (u v : List ℚ) : ℚ :=
  (List.zipWith (· * ·) u v).sum

/-- Number of columns of a matrix, read off its first row
(numpy stores the shape; for the rectangular matrices the program
builds, every row has this length). -/
def numCols (A : Mat) : ℕ :=
  (A.headD []).length

/-- Matrix transpose (`A.T`). -/
def transposeM (A : Mat) : Mat :=
  (List.range (numCols A)).map (fun j => A.map (fun row => row.getD j 0))

/-- Matrix product (`A @ B`). -/
def matMul (A B : Mat) : Mat :=
  A.map (fun row => (transposeM B).map (fun col => dot row col))

/-- Elementwise difference (`A - B`). -/
def matSub (A B : Mat) : Mat :=
  List.zipWith (List.zipWith (· - ·)) A B

/-- Scalar times matrix (`c * A`). -/
def scaleM (c : ℚ) (A : Mat) : Mat :=
  A.map (List.map (fun x => c * x))

/-- Row-broadcast addition of a vector (`M + b` with numpy broadcasting
over the batch dimension). -/
def addBias (M : Mat) (b : List ℚ) : Mat :=
  M.map (fun row => List.zipWith (· + ·) row b)

/-- `np.argmax` over one row: index of the first maximal entry. -/
def argmaxRow (r : List ℚ) : ℕ :=
  (r.enum.foldl (fun acc p => if acc.2 < p.2 then p else acc) (0, r.headD 0)).1

/-! ## ReLULayer -/

structure ReLULayer where
  input : Mat
deriving DecidableEq

/-- `ReLULayer.forward`: caches the input, returns `np.maximum(0, input)`. -/
def ReLULayer.forward (s : ReLULayer) (input : Mat) : ReLULayer × Mat :=
  ({ s with input := input }, input.map (List.map (fun x => max 0 x)))

/-- `ReLULayer.backward`: `upstream_gradient * (self.input > 0)` elementwise;
the boolean mask is multiplied as 1/0, exactly as numpy converts it. -/
def ReLULayer.backward (s : ReLULayer) (upstream_gradient : Mat) : Mat :=
  List.zipWith (List.zipWith (fun u x => u * (if 0 < x then 1 else 0)))
    upstream_gradient s.input

/-! ## OutputLayer (softmax + cross-entropy) -/

structure OutputLayer where
  n_classes : ℕ
  input : Mat
deriving DecidableEq

/-- `OutputLayer.forward`: caches the input and returns the row-wise
softmax `np.exp(input) / np.sum(np.exp(input), axis=1, keepdims=True)`,
with `np.exp` modelled by the abstract `e`. -/
def OutputLayer.forward (e : ℚ → ℚ) (s : OutputLayer) (input : Mat) :
    OutputLayer × Mat :=
  ({ s with input := input },
    input.map (fun row => row.map (fun x => e x / (row.map e).sum)))

/-- `get_one_hot(targets, nb_classes)`: `np.eye(nb_classes)[targets]`,
row `t` of the identity, i.e. the one-hot vector of `t`.  (For
`t ≥ nb_classes` numpy raises an IndexError; this total model returns the
all-zero row there, and the claims only quantify over in-range labels.) -/
def get_one_hot (targets : List ℕ) (nb_classes : ℕ) : Mat :=
  targets.map (fun t => (List.range nb_classes).map (fun j => if j = t then (1 : ℚ) else 0))

/-- `OutputLayer.backward(predicted_posteriors, true_labels)`:
`predicted_posteriors - one_hot(true_labels)`.  It reads only
`self.n_classes`, not the cached input, and mutates nothing. -/
def OutputLayer.backward (s : OutputLayer) (predicted_posteriors : Mat)
    (true_labels : List ℕ) : Mat :=
  matSub predicted_posteriors (get_one_hot true_labels s.n_classes)

/-! ## LinearLayer -/

structure LinearLayer where
  n_inputs : ℕ
  n_outputs : ℕ
  B : Mat
  b : List ℚ
  input : Mat
  grad_B : Mat
  grad_b : List ℚ
deriving DecidableEq

/-- `LinearLayer.forward`: caches the input and returns
`self.input @ self.B + self.b` (bias broadcast over the batch). -/
def LinearLayer.forward (s : LinearLayer) (input : Mat) : LinearLayer × Mat :=
  ({ s with input := input }, addBias (matMul input s.B) s.b)

/-- `LinearLayer.backward`: stores
`grad_b = np.sum(upstream_gradient, axis=0) / upstream_gradient.shape[0]`
(column sums divided by the number of batch rows) and
`grad_B = self.input.T @ upstream_gradient`, and returns
`upstream_gradient @ self.B.T`. -/
def LinearLayer.backward (s : LinearLayer) (upstream_gradient : Mat) :
    LinearLayer × Mat :=
  ({ s with
      grad_b := (transposeM upstream_gradient).map
        (fun col => col.sum / (upstream_gradient.length : ℚ))
      grad_B := matMul (transposeM s.input) upstream_gradient },
    matMul upstream_gradient (transposeM s.B))

/-- `LinearLayer.update`: `B ← B - learning_rate * grad_B`,
`b ← b - learning_rate * grad_b`. -/
def LinearLayer.update (s : LinearLayer) (learning_rate : ℚ) : LinearLayer :=
  { s with
      B := matSub s.B (scaleM learning_rate s.grad_B)
      b := List.zipWith (fun x g => x - learning_rate * g) s.b s.grad_b }

/-! ## The Layer union and the MLP -/

/-- A layer of the network: one of the three Python layer classes,
together with its mutable state. -/
inductive Layer where
  | relu (s : ReLULayer)
  | output (s : OutputLayer)
  | linear (s : LinearLayer)
deriving DecidableEq

/-- The shape-level identity of a layer: which class it is, and (for
layers that have them) its construction-time size attributes.  These
fields are never reassigned after `__init__`. -/
inductive LayerKind where
  | reluK
  | outputK (n_classes : ℕ)
  | linearK (n_inputs n_outputs : ℕ)
deriving DecidableEq

def Layer.kind : Layer → LayerKind
  | .relu _ => .reluK
  | .output s => .outputK s.n_classes
  | .linear s => .linearK s.n_inputs s.n_outputs

/-- Dynamic dispatch of `layer.forward(input)`. -/
def Layer.forward (e : ℚ → ℚ) : Layer → Mat → Layer × Mat
  | .relu s, input => let r := s.forward input; (.relu r.1, r.2)
  | .output s, input => let r := OutputLayer.forward e s input; (.output r.1, r.2)
  | .linear s, input => let r := s.forward input; (.linear r.1, r.2)

/-- Dynamic dispatch of the one-argument `layer.backward(upstream_gradient)`.
Calling it on an `OutputLayer` would raise a TypeError in Python
(its `backward` takes two arguments), hence `none`. -/
def Layer.backward : Layer → Mat → Option (Layer × Mat)
  | .relu s, g => some (.relu s, s.backward g)
  | .output _, _ => none
  | .linear s, g => let r := s.backward g; some (.linear r.1, r.2)

/-- Dynamic dispatch of the two-argument
`layer.backward(predicted_posteriors, true_classes)` used on the last
layer; only `OutputLayer` has this signature. -/
def Layer.backwardLast : Layer → Mat → List ℕ → Option Mat
  | .output s, predicted_posteriors, true_classes =>
      some (s.backward predicted_posteriors true_classes)
  | _, _, _ => none

/-- Dynamic dispatch of `layer.update(learning_rate)`; a no-op for
`ReLULayer` and `OutputLayer`. -/
def Layer.update (learning_rate : ℚ) : Layer → Layer
  | .relu s => .relu s
  | .output s => .output s
  | .linear s => .linear (s.update learning_rate)

structure MLP where
  n_layers : ℕ
  layers : List Layer
deriving DecidableEq

/-- The loop body of `MLP.__init__`: for every width of `layer_sizes`
except the last, a `LinearLayer` followed by a `ReLULayer`; for the last
width, a `LinearLayer` followed by the `OutputLayer`.  `params` supplies
the random `(B, b)` draw of each `LinearLayer` constructor in creation
order; `none` when `layer_sizes` is empty (Python raises an IndexError
on `layer_sizes[-1]`) or when `params` is too short. -/
def buildLayers (n_in : ℕ) : List ℕ → List (Mat × List ℚ) → Option (List Layer)
  | [], _ => none
  | [n_out], ps => do
      let p ← ps.head?
      some [.linear ⟨n_in, n_out, p.1, p.2, [], [], []⟩, .output ⟨n_out, []⟩]
  | n_out :: w :: rest, ps => do
      let p ← ps.head?
      let tail ← buildLayers n_out (w :: rest) ps.tail
      some (.linear ⟨n_in, n_out, p.1, p.2, [], [], []⟩ :: .relu ⟨[]⟩ :: tail)

/-- `MLP.__init__(n_features, layer_sizes)`: `n_layers = len(layer_sizes)`
and the layer list built by `buildLayers`. -/
def MLP.init (n_features : ℕ) (layer_sizes : List ℕ)
    (params : List (Mat × List ℚ)) : Option MLP :=
  (buildLayers n_features layer_sizes params).map
    (fun ls => { n_layers := layer_sizes.length, layers := ls })

/-- Sequential `layer.forward` over the layer list, threading the
activation left to right and collecting the updated layers. -/
def forwardChain (e : ℚ → ℚ) : List Layer → Mat → List Layer × Mat
  | [], x => ([], x)
  | l :: ls, x =>
      let r := l.forward e x
      let rest := forwardChain e ls r.2
      (r.1 :: rest.1, rest.2)

/-- `MLP.forward(X)`: every layer's forward in sequence.  (The initial
`X.reshape(batch_size, -1)` is the identity on the 2-D batches this
model works with.) -/
def MLP.forward (e : ℚ → ℚ) (m : MLP) (X : Mat) : MLP × Mat :=
  let r := forwardChain e m.layers X
  ({ m with layers := r.1 }, r.2)

/-- Backward over `reversed(self.layers[:-1])`: the layers AFTER the
head of the list are processed first, so the gradient flows in strict
reverse order. -/
def backwardChain : List Layer → Mat → Option (List Layer × Mat)
  | [], g => some ([], g)
  | l :: ls, g => do
      let rest ← backwardChain ls g
      let r ← l.backward rest.2
      some (r.1 :: rest.1, r.2)

/-- `MLP.backward(predicted_posteriors, true_classes)`: the last layer's
two-argument backward produces the initial upstream gradient, then every
remaining layer's backward runs in reverse order. -/
def MLP.backward (m : MLP) (predicted_posteriors : Mat)
    (true_classes : List ℕ) : Option MLP := do
  let last ← m.layers.getLast?
  let g ← last.backwardLast predicted_posteriors true_classes
  let r ← backwardChain m.layers.dropLast g
  some { m with layers := r.1 ++ [last] }

/-- `MLP.update(X, Y, learning_rate)`: forward, (dead) argmax of the
posteriors, backward, then every layer's update. -/
def MLP.update (e : ℚ → ℚ) (m : MLP) (X : Mat) (Y : List ℕ)
    (learning_rate : ℚ) : Option MLP := do
  let r := m.forward e X
  let _predicted_classes := r.2.map argmaxRow
  let m2 ← r.1.backward r.2 Y
  some { m2 with layers := m2.layers.map (Layer.update learning_rate) }

/-- Row selection by a list of indices (`x[permutation[start:start+batch_size]]`,
numpy fancy indexing). -/
def selectRows (x : Mat) (idxs : List ℕ) : Mat :=
  idxs.map (fun i => x.getD i [])

/-- Label selection by a list of indices. -/
def selectLabels (y : List ℕ) (idxs : List ℕ) : List ℕ :=
  idxs.map (fun i => y.getD i 0)

/-- One epoch of `MLP.train`, given that epoch's permutation draw:
`n_batches = N // batch_size` mini-batches, the `batch`-th being the
indices `permutation[batch*batch_size : batch*batch_size+batch_size]`,
each fed to `update` in order. -/
def trainEpoch (e : ℚ → ℚ) (x : Mat) (y : List ℕ) (batch_size : ℕ)
    (learning_rate : ℚ) (m : MLP) (permutation : List ℕ) : Option MLP :=
  (List.range (x.length / batch_size)).foldlM
    (fun m batch =>
      let idxs := (permutation.drop (batch * batch_size)).take batch_size
      MLP.update e m (selectRows x idxs) (selectLabels y idxs) learning_rate)
    m

/-- `MLP.train(x, y, n_epochs, batch_size, learning_rate)`: one
`trainEpoch` per epoch; `perms` supplies the per-epoch
`np.random.permutation(N)` draws, so `n_epochs = perms.length`.
(The `print` of the epoch number is an I/O side effect with no
bearing on the state and is not modelled.) -/
def MLP.train (e : ℚ → ℚ) (m : MLP) (x : Mat) (y : List ℕ)
    (perms : List (List ℕ)) (batch_size : ℕ) (learning_rate : ℚ) : Option MLP :=
  perms.foldlM (trainEpoch e x y batch_size learning_rate) m

/-! ## Generic access lemmas for the list-encoded matrices -/

lemma getDMap {α β : Type} (f : α → β) (l : List α) (d₁ : α) (d₂ : β)
    (hf : f d₁ = d₂) (i : ℕ) : (l.map f).getD i d₂ = f (l.getD i d₁) := by
  induction l generalizing i with
  | nil => simp [hf]
  | cons a l ih =>
      cases i with
      | zero => rfl
      | succ n => exact ih n

lemma getDZipWith {α β γ : Type} (f : α → β → γ) (l₁ : List α) (l₂ : List β)
    (d₁ : α) (d₂ : β) (d₃ : γ) (hf : f d₁ d₂ = d₃)
    (hlen : l₁.length = l₂.length) (i : ℕ) :
    (List.zipWith f l₁ l₂).getD i d₃ = f (l₁.getD i d₁) (l₂.getD i d₂) := by
  induction l₁ generalizing l₂ i with
  | nil =>
      cases l₂ with
      | nil => simp [hf]
      | cons b l₂ => simp at hlen
  | cons a l₁ ih =>
      cases l₂ with
      | nil => simp at hlen
      | cons b l₂ =>
          cases i with
          | zero => simp
          | succ i => simpa using ih l₂ (by simpa using hlen) i

lemma ifEqComm {α : Type} (a b : ℕ) (x y : α) :
    (if a = b then x else y) = if b = a then x else y := by
  by_cases h : a = b
  · simp [h]
  · simp [h, Ne.symm h]

lemma length_transposeM (A : Mat) : (transposeM A).length = numCols A := by
  simp [transposeM]

lemma length_of_mem_transposeM {A : Mat} {r : List ℚ} (h : r ∈ transposeM A) :
    r.length = A.length := by
  simp only [transposeM, List.mem_map, List.mem_range] at h
  obtain ⟨j, -, rfl⟩ := h
  simp

lemma length_matMul (A B : Mat) : (matMul A B).length = A.length := by
  simp [matMul]

lemma length_of_mem_matMul {A B : Mat} {r : List ℚ} (h : r ∈ matMul A B) :
    r.length = numCols B := by
  simp only [matMul, List.mem_map] at h
  obtain ⟨row, -, rfl⟩ := h
  simp [length_transposeM]

lemma numCols_eq_of_forall {A : Mat} {n : ℕ} (hne : A ≠ [])
    (h : ∀ r ∈ A, r.length = n) : numCols A = n := by
  cases A with
  | nil => exact absurd rfl hne
  | cons a l => exact h a (List.mem_cons_self a l)

lemma numCols_transposeM {A : Mat} (h : 0 < numCols A) :
    numCols (transposeM A) = A.length := by
  obtain ⟨n, hn⟩ : ∃ n, numCols A = n + 1 := ⟨numCols A - 1, by omega⟩
  rw [transposeM, hn, List.range_succ_eq_map]
  simp [numCols]

/-! ## Claims about the individual layers -/

/-- Claim C3: after `ReLULayer.forward(input)`, `ReLULayer.backward`
returns the upstream gradient masked by the indicator `input > 0`:
entries where the input was strictly positive pass through unchanged,
and entries where the input was `≤ 0` (including exactly `0`) are `0`. -/
theorem claim_C3 (s : ReLULayer) (input upstream_gradient : Mat) :
    ReLULayer.backward ((ReLULayer.forward s input).1) upstream_gradient =
      List.zipWith (List.zipWith (fun u x => if 0 < x then u else 0))
        upstream_gradient input := by
  have h : (fun (u x : ℚ) => u * (if 0 < x then 1 else 0)) =
      fun (u x : ℚ) => if 0 < x then u else 0 := by
    funext u x
    by_cases hx : 0 < x <;> simp [hx]
  simp only [ReLULayer.backward, ReLULayer.forward, h]

/-- Claim C9: `LinearLayer.forward` mutates only the input cache and
`LinearLayer.backward` mutates only the stored gradients; in particular
the weights `B` and the bias `b` are left unchanged by both, so only
`update` ever mutates them. -/
theorem claim_C9 (s : LinearLayer) (input upstream_gradient : Mat) :
    ((LinearLayer.forward s input).1.B = s.B
      ∧ (LinearLayer.forward s input).1.b = s.b
      ∧ (LinearLayer.forward s input).1.grad_B = s.grad_B
      ∧ (LinearLayer.forward s input).1.grad_b = s.grad_b
      ∧ (LinearLayer.forward s input).1.n_inputs = s.n_inputs
      ∧ (LinearLayer.forward s input).1.n_outputs = s.n_outputs
      ∧ (LinearLayer.forward s input).1.input = input)
    ∧ ((LinearLayer.backward s upstream_gradient).1.B = s.B
      ∧ (LinearLayer.backward s upstream_gradient).1.b = s.b
      ∧ (LinearLayer.backward s upstream_gradient).1.input = s.input
      ∧ (LinearLayer.backward s upstream_gradient).1.n_inputs = s.n_inputs
      ∧ (LinearLayer.backward s upstream_gradient).1.n_outputs = s.n_outputs) :=
  ⟨⟨rfl, rfl, rfl, rfl, rfl, rfl, rfl⟩, rfl, rfl, rfl, rfl, rfl⟩

/-- Claim C10: `OutputLayer.backward` depends only on its two arguments
and `n_classes`: two layer states with the same `n_classes` but
arbitrary (different, or never written) input caches return the same
gradient. -/
theorem claim_C10 (n_classes : ℕ) (cache₁ cache₂ predicted_posteriors : Mat)
    (true_labels : List ℕ) :
    OutputLayer.backward ⟨n_classes, cache₁⟩ predicted_posteriors true_labels =
      OutputLayer.backward ⟨n_classes, cache₂⟩ predicted_posteriors true_labels :=
  rfl

/-- Claim C5: `update(learning_rate)` replaces `B` by
`B - learning_rate * grad_B` (entrywise) and `b` by
`b - learning_rate * grad_b`, and changes nothing else (cache,
gradients and size attributes are untouched). -/
theorem claim_C5 (s : LinearLayer) (learning_rate : ℚ)
    (hgB : s.grad_B.length = s.B.length)
    (hgBr : ∀ i, (s.grad_B.getD i []).length = (s.B.getD i []).length)
    (hgb : s.grad_b.length = s.b.length) :
    (∀ i j, ((s.update learning_rate).B.getD i []).getD j 0 =
        (s.B.getD i []).getD j 0 - learning_rate * ((s.grad_B.getD i []).getD j 0))
    ∧ (∀ j, (s.update learning_rate).b.getD j 0 =
        s.b.getD j 0 - learning_rate * s.grad_b.getD j 0)
    ∧ (s.update learning_rate).B.length = s.B.length
    ∧ (s.update learning_rate).b.length = s.b.length
    ∧ (s.update learning_rate).input = s.input
    ∧ (s.update learning_rate).grad_B = s.grad_B
    ∧ (s.update learning_rate).grad_b = s.grad_b
    ∧ (s.update learning_rate).n_inputs = s.n_inputs
    ∧ (s.update learning_rate).n_outputs = s.n_outputs := by
  refine ⟨?_, ?_, ?_, ?_, rfl, rfl, rfl, rfl, rfl⟩
  · intro i j
    have houter : ((s.update learning_rate).B).getD i [] =
        List.zipWith (· - ·) (s.B.getD i [])
          ((scaleM learning_rate s.grad_B).getD i []) := by
      show ((matSub s.B (scaleM learning_rate s.grad_B)).getD i []) = _
      exact getDZipWith _ _ _ [] [] [] rfl (by simp [scaleM, hgB]) i
    rw [houter, show (scaleM learning_rate s.grad_B).getD i [] =
        (s.grad_B.getD i []).map (fun x => learning_rate * x) from
        getDMap _ _ [] [] rfl i]
    rw [getDZipWith (· - ·) _ _ 0 0 0 (by ring)
      (by simpa using (hgBr i).symm) j]
    rw [getDMap (fun x => learning_rate * x) _ 0 0 (by ring) j]
  · intro j
    exact getDZipWith _ _ _ 0 0 0 (by ring) hgb.symm j
  · simp [LinearLayer.update, matSub, scaleM, hgB]
  · simp [LinearLayer.update, hgb]

/-- Concrete instance of claim C5 at a 1×1 layer. -/
theorem claim_C5_witness :
    ((LinearLayer.update ⟨1, 1, [[2]], [3], [[4]], [[5]], [6]⟩ 2).B.getD 0 []).getD 0 0 =
      (2 : ℚ) - 2 * 5 :=
  (claim_C5 ⟨1, 1, [[2]], [3], [[4]], [[5]], [6]⟩ 2 rfl
    (fun i => by cases i <;> rfl) rfl).1 0 0

/-- Claim C2: `OutputLayer.backward` returns
`predicted_posteriors - one_hot(true_labels)` entrywise, and when the
predicted posteriors are exactly the one-hot encoding of the true
labels the returned gradient is the all-zero matrix. -/
theorem claim_C2 (s : OutputLayer) (predicted_posteriors : Mat)
    (true_labels : List ℕ)
    (hlen : true_labels.length = predicted_posteriors.length)
    (hrow : ∀ r ∈ predicted_posteriors, r.length = s.n_classes)
    (hlab : ∀ t ∈ true_labels, t < s.n_classes) :
    (∀ i, i < predicted_posteriors.length → ∀ j, j < s.n_classes →
      ((OutputLayer.backward s predicted_posteriors true_labels).getD i []).getD j 0 =
        (predicted_posteriors.getD i []).getD j 0 -
          if true_labels.getD i 0 = j then 1 else 0)
    ∧ OutputLayer.backward s (get_one_hot true_labels s.n_classes) true_labels =
        true_labels.map (fun _ => List.replicate s.n_classes (0 : ℚ)) := by
  constructor
  · intro i hi j hj
    have hi' : i < true_labels.length := by omega
    have houter : (OutputLayer.backward s predicted_posteriors true_labels).getD i [] =
        List.zipWith (· - ·) (predicted_posteriors.getD i [])
          ((get_one_hot true_labels s.n_classes).getD i []) := by
      show (matSub _ _).getD i [] = _
      exact getDZipWith _ _ _ [] [] [] rfl (by simp [get_one_hot, hlen]) i
    have hoh : (get_one_hot true_labels s.n_classes).getD i [] =
        (List.range s.n_classes).map
          (fun k => if k = true_labels.getD i 0 then (1 : ℚ) else 0) := by
      rw [List.getD_eq_getElem _ _ (by simpa [get_one_hot] using hi'),
        List.getD_eq_getElem _ _ hi']
      simp [get_one_hot]
    rw [houter, hoh]
    have hplen : (predicted_posteriors.getD i []).length = s.n_classes := by
      rw [List.getD_eq_getElem _ _ hi]
      exact hrow _ (List.getElem_mem hi)
    rw [getDZipWith (· - ·) _ _ 0 0 0 (by ring) (by simpa using hplen) j]
    have hone : ((List.range s.n_classes).map
        (fun k => if k = true_labels.getD i 0 then (1 : ℚ) else 0)).getD j 0 =
        if true_labels.getD i 0 = j then 1 else 0 := by
      rw [List.getD_eq_getElem _ _ (by simpa using hj)]
      simp only [List.getElem_map, List.getElem_range]
      exact ifEqComm j (true_labels.getD i 0) 1 0
    rw [hone]
  · show matSub _ _ = _
    rw [matSub, List.zipWith_same, get_one_hot, List.map_map]
    refine List.map_congr_left (fun t _ => ?_)
    simp only [Function.comp_apply, List.zipWith_same, List.map_map]
    have : ((fun a : ℚ => a - a) ∘ fun j : ℕ => if j = t then (1 : ℚ) else 0) =
        fun _ : ℕ => (0 : ℚ) := by
      funext j
      simp
    rw [this, List.map_const', List.length_range]

/-- Concrete instance of claim C2 at a 1×2 batch. -/
theorem claim_C2_witness :
    ((OutputLayer.backward ⟨2, []⟩ [[1, 0]] [0]).getD 0 []).getD 1 0 =
      (0 : ℚ) - if (0 : ℕ) = 1 then 1 else 0 :=
  (claim_C2 ⟨2, []⟩ [[1, 0]] [0] rfl
    (by intro r hr; simp at hr; simp [hr])
    (by intro t ht; simp at ht; simp [ht])).1 0 (by decide) 1 (by decide)

/-- Claim C4: `LinearLayer.forward(input)` caches `input` and returns
`input·B + b` with the bias broadcast over the batch: the result has one
row per batch instance, each of length `n_outputs`, whose `j`-th entry
is the dot product of the instance with column `j` of `B` plus `b j`. -/
theorem claim_C4 (s : LinearLayer) (x : Mat)
    (hBlen : s.B.length = s.n_inputs) (hBpos : 0 < s.n_inputs)
    (hBrow : ∀ r ∈ s.B, r.length = s.n_outputs)
    (hb : s.b.length = s.n_outputs) :
    (LinearLayer.forward s x).1.input = x
    ∧ ((LinearLayer.forward s x).2).length = x.length
    ∧ (∀ r ∈ (LinearLayer.forward s x).2, r.length = s.n_outputs)
    ∧ (∀ i, i < x.length → ∀ j, j < s.n_outputs →
        (((LinearLayer.forward s x).2).getD i []).getD j 0 =
          dot (x.getD i []) (s.B.map (fun r => r.getD j 0)) + s.b.getD j 0) := by
  have hBne : s.B ≠ [] := by
    intro h
    rw [h] at hBlen
    simp at hBlen
    omega
  have hBcols : numCols s.B = s.n_outputs := numCols_eq_of_forall hBne hBrow
  refine ⟨rfl, ?_, ?_, ?_⟩
  · simp [LinearLayer.forward, addBias, length_matMul]
  · intro r hr
    simp only [LinearLayer.forward, addBias, List.mem_map] at hr
    obtain ⟨row, hrow', rfl⟩ := hr
    have hl : row.length = numCols s.B := length_of_mem_matMul hrow'
    simp [hl, hBcols, hb]
  · intro i hi j hj
    show ((addBias (matMul x s.B) s.b).getD i []).getD j 0 = _
    have h1 : (addBias (matMul x s.B) s.b).getD i [] =
        List.zipWith (· + ·)
          ((transposeM s.B).map (fun col => dot (x.getD i []) col)) s.b := by
      rw [addBias, matMul, List.map_map]
      rw [List.getD_eq_getElem _ _ (by simpa using hi)]
      rw [List.getElem_map]
      rw [List.getD_eq_getElem x _ hi]
      rfl
    rw [h1]
    have htlen : ((transposeM s.B).map (fun col => dot (x.getD i []) col)).length
        = s.n_outputs := by
      simp [length_transposeM, hBcols]
    rw [getDZipWith (· + ·) _ _ 0 0 0 (by ring) (by rw [htlen, hb]) j]
    congr 1
    rw [List.getD_eq_getElem _ _ (by simpa [length_transposeM, hBcols] using hj)]
    rw [List.getElem_map]
    congr 1
    simp [transposeM]

/-- Concrete instance of claim C4 at a 1×1 layer on a one-instance batch. -/
theorem claim_C4_witness :
    (((LinearLayer.forward ⟨1, 1, [[2]], [3], [], [], []⟩ [[5]]).2).getD 0 []).getD 0 0
      = (13 : ℚ) := by
  have h := (claim_C4 ⟨1, 1, [[2]], [3], [], [], []⟩ [[5]] rfl (by decide)
    (by intro r hr; simp at hr; simp [hr]) rfl).2.2.2 0 (by decide) 0 (by decide)
  rw [h]
  norm_num [dot]

/-- Claim C1: after `forward(input)`, `backward(upstream_gradient)`
stores `grad_b` equal to the per-column mean of the upstream gradient
over the batch (shape `n_outputs`), stores `grad_B` equal to
`input.T @ upstream_gradient` with NO batch averaging (shape
`n_inputs × n_outputs`), and returns `upstream_gradient @ B.T`
(shape `batch × n_inputs`). -/
theorem claim_C1 (s : LinearLayer) (x upstream_gradient : Mat)
    (hxne : x ≠ [])
    (hxr : ∀ r ∈ x, r.length = s.n_inputs)
    (hBlen : s.B.length = s.n_inputs) (hBpos : 0 < s.n_inputs)
    (hBrow : ∀ r ∈ s.B, r.length = s.n_outputs) (hopos : 0 < s.n_outputs)
    (huplen : upstream_gradient.length = x.length)
    (hupr : ∀ r ∈ upstream_gradient, r.length = s.n_outputs) :
    ((LinearLayer.backward ((LinearLayer.forward s x).1) upstream_gradient).1.grad_b =
        (transposeM upstream_gradient).map (fun col => col.sum / (col.length : ℚ))
      ∧ (LinearLayer.backward ((LinearLayer.forward s x).1) upstream_gradient).1.grad_b.length
        = s.n_outputs)
    ∧ ((LinearLayer.backward ((LinearLayer.forward s x).1) upstream_gradient).1.grad_B =
        matMul (transposeM x) upstream_gradient
      ∧ (LinearLayer.backward ((LinearLayer.forward s x).1) upstream_gradient).1.grad_B.length
        = s.n_inputs
      ∧ (∀ r ∈ (LinearLayer.backward ((LinearLayer.forward s x).1) upstream_gradient).1.grad_B,
          r.length = s.n_outputs))
    ∧ ((LinearLayer.backward ((LinearLayer.forward s x).1) upstream_gradient).2 =
        matMul upstream_gradient (transposeM s.B)
      ∧ (LinearLayer.backward ((LinearLayer.forward s x).1) upstream_gradient).2.length
        = upstream_gradient.length
      ∧ (∀ r ∈ (LinearLayer.backward ((LinearLayer.forward s x).1) upstream_gradient).2,
          r.length = s.n_inputs)) := by
  have hupne : upstream_gradient ≠ [] := by
    intro h
    apply hxne
    rw [h] at huplen
    exact (List.length_eq_zero.mp huplen.symm)
  have hxcols : numCols x = s.n_inputs := numCols_eq_of_forall hxne hxr
  have hupcols : numCols upstream_gradient = s.n_outputs :=
    numCols_eq_of_forall hupne hupr
  have hBne : s.B ≠ [] := by
    intro h
    rw [h] at hBlen
    simp at hBlen
    omega
  have hBcols : numCols s.B = s.n_outputs := numCols_eq_of_forall hBne hBrow
  refine ⟨⟨?_, ?_⟩, ⟨rfl, ?_, ?_⟩, rfl, ?_, ?_⟩
  · refine List.map_congr_left (fun col hcol => ?_)
    rw [length_of_mem_transposeM hcol]
  · simp [LinearLayer.backward, length_transposeM, hupcols]
  · have hfi : (LinearLayer.forward s x).1.input = x := rfl
    simp [LinearLayer.backward, length_matMul, length_transposeM, hfi, hxcols]
  · intro r hr
    rw [length_of_mem_matMul hr, hupcols]
  · simp [LinearLayer.backward, length_matMul]
  · intro r hr
    have hfB : (LinearLayer.forward s x).1.B = s.B := rfl
    rw [length_of_mem_matMul hr, hfB,
      numCols_transposeM (by rw [hBcols]; omega), hBlen]

/-- Concrete instance of claim C1 at a 1×1 layer on a one-instance batch. -/
theorem claim_C1_witness :
    (LinearLayer.backward
      ((LinearLayer.forward ⟨1, 1, [[2]], [3], [], [], []⟩ [[5]]).1) [[7]]).1.grad_b
      = [(7 : ℚ)] := by
  have h := (claim_C1 ⟨1, 1, [[2]], [3], [], [], []⟩ [[5]] [[7]] (by decide)
    (by intro r hr; simp at hr; simp [hr]) rfl (by decide)
    (by intro r hr; simp at hr; simp [hr]) (by decide) rfl
    (by intro r hr; simp at hr; simp [hr])).1.1
  rw [h]
  norm_num [transposeM, numCols, List.range_succ]

lemma sum_map_div (l : List ℚ) (f : ℚ → ℚ) (c : ℚ) :
    (l.map (fun x => f x / c)).sum = (l.map f).sum / c := by
  induction l with
  | nil => simp
  | cons a l ih => simp [ih, add_div]

/-- Claim C8: `OutputLayer.forward` returns the row-wise softmax
`e x / Σ e x`, and (whenever the exponential function is positive, as
`np.exp` is, and rows are nonempty) every output row sums exactly to 1
and every entry lies in `[0, 1]`. -/
theorem claim_C8 (e : ℚ → ℚ) (s : OutputLayer) (input : Mat)
    (he : ∀ q, 0 < e q) (hrows : ∀ r ∈ input, r ≠ []) :
    (OutputLayer.forward e s input).2 =
      input.map (fun row => row.map (fun x => e x / (row.map e).sum))
    ∧ ∀ row ∈ (OutputLayer.forward e s input).2,
        row.sum = 1 ∧ ∀ y ∈ row, 0 ≤ y ∧ y ≤ 1 := by
  refine ⟨rfl, ?_⟩
  intro row hrow
  simp only [OutputLayer.forward, List.mem_map] at hrow
  obtain ⟨r, hr, rfl⟩ := hrow
  have hrne : r ≠ [] := hrows r hr
  have hmapne : r.map e ≠ [] := by simpa using hrne
  have hpos : 0 < (r.map e).sum := by
    refine List.sum_pos _ ?_ hmapne
    intro y hy
    simp only [List.mem_map] at hy
    obtain ⟨x, -, rfl⟩ := hy
    exact he x
  constructor
  · rw [sum_map_div]
    exact div_self (ne_of_gt hpos)
  · intro y hy
    simp only [List.mem_map] at hy
    obtain ⟨x, hx, rfl⟩ := hy
    constructor
    · exact div_nonneg (he x).le hpos.le
    · rw [div_le_one hpos]
      refine List.single_le_sum ?_ _ (List.mem_map_of_mem e hx)
      intro z hz
      simp only [List.mem_map] at hz
      obtain ⟨a, -, rfl⟩ := hz
      exact (he a).le

/-- Concrete instance of claim C8 with the constant positive function
standing in for the exponential. -/
theorem claim_C8_witness :
    (∀ q : ℚ, 0 < (fun _ : ℚ => (1 : ℚ)) q) ∧
    ((OutputLayer.forward (fun _ : ℚ => 1) ⟨1, []⟩ [[0]]).2 =
        [[0]].map (fun row => row.map
          (fun x => (fun _ : ℚ => (1 : ℚ)) x / (row.map (fun _ : ℚ => (1 : ℚ))).sum))
      ∧ ∀ row ∈ (OutputLayer.forward (fun _ : ℚ => 1) ⟨1, []⟩ [[0]]).2,
          row.sum = 1 ∧ ∀ y ∈ row, 0 ≤ y ∧ y ≤ 1) :=
  ⟨fun _ => one_pos,
    claim_C8 (fun _ => 1) ⟨1, []⟩ [[0]] (fun _ => one_pos)
      (by intro r hr; simp at hr; simp [hr])⟩

/-! ## Network structure (claim C6) -/

/-- The layer-kind sequence the specification prescribes for the hidden
part of the network: for each width except the last, a Linear layer
(input width = previous width, starting at `n_features`) followed by a
ReLU layer. -/
def specHiddenKinds (n_features : ℕ) : List ℕ → List LayerKind
  | [] => []
  | w :: ws => .linearK n_features w :: .reluK :: specHiddenKinds w ws

/-- The width feeding the final Linear layer: the last hidden width, or
`n_features` when there are no hidden layers. -/
def specLastWidth (n_features : ℕ) : List ℕ → ℕ
  | [] => n_features
  | w :: ws => specLastWidth w ws

/-- The sequence of layer kinds of a network. -/
def kindsOf (m : MLP) : List LayerKind :=
  m.layers.map Layer.kind

lemma specHiddenKinds_length (n_features : ℕ) (ws : List ℕ) :
    (specHiddenKinds n_features ws).length = 2 * ws.length := by
  induction ws generalizing n_features with
  | nil => rfl
  | cons w ws ih =>
      simp only [specHiddenKinds, List.length_cons, ih, List.length]
      omega

lemma buildLayers_kinds (ws : List ℕ) :
    ∀ (n_in lastw : ℕ) (ps : List (Mat × List ℚ)) (ls : List Layer),
      buildLayers n_in (ws ++ [lastw]) ps = some ls →
      ls.map Layer.kind = specHiddenKinds n_in ws ++
        [.linearK (specLastWidth n_in ws) lastw, .outputK lastw] := by
  induction ws with
  | nil =>
      intro n_in lastw ps ls h
      cases ps with
      | nil => simp [buildLayers] at h
      | cons p pt =>
          simp only [buildLayers, List.head?, Option.some_bind] at h
          rw [← Option.some_inj.mp h]
          rfl
  | cons w ws ih =>
      intro n_in lastw ps ls h
      obtain ⟨w2, rest, hq⟩ : ∃ w2 rest, ws ++ [lastw] = w2 :: rest := by
        cases ws with
        | nil => exact ⟨lastw, [], rfl⟩
        | cons a t => exact ⟨a, t ++ [lastw], rfl⟩
      rw [List.cons_append, hq] at h
      cases ps with
      | nil => simp [buildLayers] at h
      | cons p pt =>
          simp only [buildLayers, List.head?, Option.some_bind, List.tail_cons] at h
          cases hb : buildLayers w (w2 :: rest) pt with
          | none => rw [hb] at h; simp at h
          | some tail =>
              rw [hb] at h
              simp at h
              rw [← h]
              have htail := ih w lastw pt tail (by rw [hq]; exact hb)
              simp [Layer.kind, specHiddenKinds, specLastWidth, htail]

lemma Layer.kind_forward (e : ℚ → ℚ) (l : Layer) (x : Mat) :
    ((Layer.forward e l x).1).kind = l.kind := by
  cases l <;> rfl

lemma Layer.kind_backward {l : Layer} {g : Mat} {l' : Layer} {d : Mat}
    (h : Layer.backward l g = some (l', d)) : l'.kind = l.kind := by
  cases l with
  | relu s =>
      simp only [Layer.backward, Option.some_inj, Prod.mk.injEq] at h
      rw [← h.1]
  | output s => simp [Layer.backward] at h
  | linear s =>
      simp only [Layer.backward, Option.some_inj, Prod.mk.injEq] at h
      rw [← h.1]
      rfl

lemma Layer.kind_update (learning_rate : ℚ) (l : Layer) :
    (Layer.update learning_rate l).kind = l.kind := by
  cases l <;> rfl

lemma forwardChain_kinds (e : ℚ → ℚ) (ls : List Layer) (x : Mat) :
    (forwardChain e ls x).1.map Layer.kind = ls.map Layer.kind := by
  induction ls generalizing x with
  | nil => rfl
  | cons l ls ih => simp [forwardChain, Layer.kind_forward, ih]

lemma backwardChain_kinds :
    ∀ (ls : List Layer) (g : Mat) (ls' : List Layer) (g' : Mat),
      backwardChain ls g = some (ls', g') →
      ls'.map Layer.kind = ls.map Layer.kind := by
  intro ls
  induction ls with
  | nil =>
      intro g ls' g' h
      simp only [backwardChain, Option.some_inj, Prod.mk.injEq] at h
      rw [← h.1]
  | cons l ls ih =>
      intro g ls' g' h
      simp only [backwardChain] at h
      cases hrest : backwardChain ls g with
      | none => rw [hrest] at h; simp at h
      | some r =>
          rw [hrest] at h
          simp only [Option.bind_eq_bind, Option.some_bind] at h
          cases hl : l.backward r.2 with
          | none => rw [hl] at h; simp at h
          | some q =>
              rw [hl] at h
              simp at h
              rw [← h.1]
              simp only [List.map_cons]
              have hl2 : l.backward r.2 = some (q.1, q.2) := by rw [hl]
              rw [Layer.kind_backward hl2, ih g r.1 r.2 (by rw [hrest])]

lemma MLP.forward_kinds (e : ℚ → ℚ) (m : MLP) (X : Mat) :
    kindsOf (MLP.forward e m X).1 = kindsOf m := by
  simp [MLP.forward, kindsOf, forwardChain_kinds]

lemma MLP.backward_kinds {m : MLP} {pp : Mat} {tc : List ℕ} {m' : MLP}
    (h : MLP.backward m pp tc = some m') : kindsOf m' = kindsOf m := by
  unfold MLP.backward at h
  cases hlast : m.layers.getLast? with
  | none => rw [hlast] at h; simp at h
  | some last =>
      rw [hlast] at h
      simp only [Option.bind_eq_bind, Option.some_bind] at h
      cases hbl : last.backwardLast pp tc with
      | none => rw [hbl] at h; simp at h
      | some g =>
          rw [hbl] at h
          simp only [Option.some_bind] at h
          cases hbc : backwardChain m.layers.dropLast g with
          | none => rw [hbc] at h; simp at h
          | some r =>
              rw [hbc] at h
              simp at h
              have hne : m.layers ≠ [] := by
                intro hh
                rw [hh] at hlast
                simp at hlast
              have hgl : m.layers.getLast hne = last := by
                rw [List.getLast?_eq_getLast_of_ne_nil hne] at hlast
                exact Option.some_inj.mp hlast
              have hsplit : m.layers.dropLast ++ [last] = m.layers := by
                rw [← hgl]
                exact List.dropLast_append_getLast hne
              rw [← h]
              show (r.1 ++ [last]).map Layer.kind = kindsOf m
              rw [List.map_append,
                backwardChain_kinds m.layers.dropLast g r.1 r.2 (by rw [hbc]),
                ← List.map_append, hsplit]
              rfl

lemma MLP.update_kinds {e : ℚ → ℚ} {m : MLP} {X : Mat} {Y : List ℕ}
    {learning_rate : ℚ} {m' : MLP}
    (h : MLP.update e m X Y learning_rate = some m') : kindsOf m' = kindsOf m := by
  rw [show MLP.update e m X Y learning_rate =
      ((MLP.forward e m X).1.backward (MLP.forward e m X).2 Y).bind
        (fun m2 => some { m2 with
          layers := m2.layers.map (Layer.update learning_rate) }) from rfl] at h
  cases hb : (MLP.forward e m X).1.backward (MLP.forward e m X).2 Y with
  | none => rw [hb] at h; simp at h
  | some m2 =>
      rw [hb] at h
      simp at h
      rw [← h]
      show (m2.layers.map (Layer.update learning_rate)).map Layer.kind = kindsOf m
      rw [List.map_map]
      have hcomp : (Layer.kind ∘ Layer.update learning_rate) = Layer.kind := by
        funext l
        exact Layer.kind_update learning_rate l
      rw [hcomp]
      show kindsOf m2 = kindsOf m
      rw [MLP.backward_kinds hb, MLP.forward_kinds]

lemma foldlM_kinds {α : Type} (f : MLP → α → Option MLP)
    (hf : ∀ m a m', f m a = some m' → kindsOf m' = kindsOf m) :
    ∀ (l : List α) (m m' : MLP), List.foldlM f m l = some m' →
      kindsOf m' = kindsOf m := by
  intro l
  induction l with
  | nil =>
      intro m m' h
      simp at h
      rw [h]
  | cons a l ih =>
      intro m m' h
      rw [List.foldlM_cons] at h
      cases hf1 : f m a with
      | none => rw [hf1] at h; simp at h
      | some m1 =>
          rw [hf1] at h
          simp only [Option.bind_eq_bind, Option.some_bind] at h
          rw [ih m1 m' h, hf m a m1 hf1]

lemma trainEpoch_kinds {e : ℚ → ℚ} {x : Mat} {y : List ℕ} {bs : ℕ} {lr : ℚ}
    {m : MLP} {perm : List ℕ} {m' : MLP}
    (h : trainEpoch e x y bs lr m perm = some m') : kindsOf m' = kindsOf m :=
  foldlM_kinds _ (fun _ _ _ hu => MLP.update_kinds hu) _ m m' h

lemma MLP.train_kinds {e : ℚ → ℚ} {m : MLP} {x : Mat} {y : List ℕ}
    {perms : List (List ℕ)} {bs : ℕ} {lr : ℚ} {m' : MLP}
    (h : MLP.train e m x y perms bs lr = some m') : kindsOf m' = kindsOf m :=
  foldlM_kinds _ (fun _ _ _ hu => trainEpoch_kinds hu) _ m m' h

/-- Claim C6: a network constructed from `n_features` and a (nonempty)
width list holds exactly `2·len(layer_sizes)` layers — a Linear layer
followed by a ReLU layer for each width but the last (each Linear fed by
the previous width, starting at `n_features`), and a Linear layer
followed by the Output layer for the last width — and this sequence of
layer kinds is never changed by `forward`, `backward`, `update` or
`train`. -/
theorem claim_C6 (n_features lastw : ℕ) (ws : List ℕ)
    (params : List (Mat × List ℚ)) (m : MLP)
    (h : MLP.init n_features (ws ++ [lastw]) params = some m) :
    kindsOf m = specHiddenKinds n_features ws ++
        [.linearK (specLastWidth n_features ws) lastw, .outputK lastw]
    ∧ m.layers.length = 2 * (ws ++ [lastw]).length
    ∧ (∀ e X, kindsOf (MLP.forward e m X).1 = kindsOf m)
    ∧ (∀ pp tc m', MLP.backward m pp tc = some m' → kindsOf m' = kindsOf m)
    ∧ (∀ e X Y lr m', MLP.update e m X Y lr = some m' → kindsOf m' = kindsOf m)
    ∧ (∀ e x y perms bs lr m', MLP.train e m x y perms bs lr = some m' →
        kindsOf m' = kindsOf m) := by
  have hb : buildLayers n_features (ws ++ [lastw]) params = some m.layers := by
    unfold MLP.init at h
    cases hbb : buildLayers n_features (ws ++ [lastw]) params with
    | none => rw [hbb] at h; simp at h
    | some ls =>
        rw [hbb] at h
        simp at h
        rw [← h]
  have hk := buildLayers_kinds ws n_features lastw params m.layers hb
  refine ⟨hk, ?_, fun e X => MLP.forward_kinds e m X,
    fun pp tc m' h' => MLP.backward_kinds h',
    fun e X Y lr m' h' => MLP.update_kinds h',
    fun e x y perms bs lr m' h' => MLP.train_kinds h'⟩
  have hlen := congrArg List.length hk
  simp only [kindsOf, List.length_map, List.length_append,
    specHiddenKinds_length] at hlen ⊢
  simp at hlen ⊢
  omega

/-- Concrete instance of claim C6: a single-width network is one Linear
layer followed by the Output layer. -/
theorem claim_C6_witness :
    MLP.init 1 ([] ++ [1]) [([[0]], [0])] = some
      ⟨1, [.linear ⟨1, 1, [[0]], [0], [], [], []⟩, .output ⟨1, []⟩]⟩
    ∧ kindsOf ⟨1, [.linear ⟨1, 1, [[0]], [0], [], [], []⟩, .output ⟨1, []⟩]⟩ =
        specHiddenKinds 1 [] ++ [.linearK (specLastWidth 1 []) 1, .outputK 1] :=
  ⟨rfl, (claim_C6 1 1 [] [([[0]], [0])]
    ⟨1, [.linear ⟨1, 1, [[0]], [0], [], [], []⟩, .output ⟨1, []⟩]⟩ rfl).1⟩

/-! ## Epoch batching (claim C7) -/

/-- The index mini-batches the `batch` loop of `train` slices out of an
epoch's permutation: `N // batch_size` contiguous blocks
`permutation[batch*batch_size : batch*batch_size + batch_size]`. -/
def epochBatches (N batch_size : ℕ) (perm : List ℕ) : List (List ℕ) :=
  (List.range (N / batch_size)).map
    (fun batch => (perm.drop (batch * batch_size)).take batch_size)

lemma trainEpoch_eq_foldlM (e : ℚ → ℚ) (x : Mat) (y : List ℕ)
    (batch_size : ℕ) (learning_rate : ℚ) (m : MLP) (perm : List ℕ) :
    trainEpoch e x y batch_size learning_rate m perm =
      (epochBatches x.length batch_size perm).foldlM
        (fun m idxs => MLP.update e m (selectRows x idxs) (selectLabels y idxs)
          learning_rate) m := by
  rw [trainEpoch, epochBatches, List.foldlM_map]

lemma epochBatches_length (N batch_size : ℕ) (perm : List ℕ) :
    (epochBatches N batch_size perm).length = N / batch_size := by
  simp [epochBatches]

lemma mem_epochBatches_length {N batch_size : ℕ} {perm : List ℕ}
    (hlen : perm.length = N) {bjs : List ℕ}
    (h : bjs ∈ epochBatches N batch_size perm) : bjs.length = batch_size := by
  simp only [epochBatches, List.mem_map, List.mem_range] at h
  obtain ⟨k, hk, rfl⟩ := h
  have hle : k * batch_size + batch_size ≤ N := by
    have h2 : (k + 1) * batch_size ≤ (N / batch_size) * batch_size :=
      Nat.mul_le_mul_right batch_size hk
    have h3 : (N / batch_size) * batch_size ≤ N := Nat.div_mul_le_self N batch_size
    calc k * batch_size + batch_size = (k + 1) * batch_size := by ring
    _ ≤ N := le_trans h2 h3
  simp only [List.length_take, List.length_drop, hlen]
  omega

lemma mem_epochBatches_sublist {N batch_size : ℕ} {perm : List ℕ} {bjs : List ℕ}
    (h : bjs ∈ epochBatches N batch_size perm) : bjs.Sublist perm := by
  simp only [epochBatches, List.mem_map, List.mem_range] at h
  obtain ⟨k, -, rfl⟩ := h
  exact (List.take_sublist _ _).trans (List.drop_sublist _ _)

lemma epochBatches_pairwise_disjoint {N batch_size : ℕ} {perm : List ℕ}
    (hnd : perm.Nodup) :
    List.Pairwise (fun b₁ b₂ => ∀ t ∈ b₁, t ∉ b₂)
      (epochBatches N batch_size perm) := by
  rw [epochBatches, List.pairwise_map]
  refine (List.pairwise_lt_range _).imp ?_
  intro i j hij t hti htj
  have hle : i * batch_size + batch_size ≤ j * batch_size := by
    have := Nat.mul_le_mul_right batch_size (Nat.succ_le_of_lt hij)
    calc i * batch_size + batch_size = (i + 1) * batch_size := by ring
    _ ≤ j * batch_size := this
  have key : List.Disjoint ((perm.drop (i * batch_size)).take batch_size)
      (perm.drop (i * batch_size + batch_size)) := by
    have hsplit : (perm.drop (i * batch_size)).take batch_size ++
        perm.drop (i * batch_size + batch_size) = perm.drop (i * batch_size) := by
      conv_rhs => rw [← List.take_append_drop batch_size (perm.drop (i * batch_size))]
      rw [List.drop_drop]
    have hnd2 : (perm.drop (i * batch_size)).Nodup :=
      (List.drop_sublist _ _).nodup hnd
    rw [← hsplit] at hnd2
    exact (List.nodup_append.mp hnd2).2.2
  have hsub : List.Sublist ((perm.drop (j * batch_size)).take batch_size)
      (perm.drop (i * batch_size + batch_size)) :=
    (List.take_sublist _ _).trans (List.drop_sublist_drop_left perm hle)
  exact key hti (hsub.subset htj)

lemma epochBatches_join (N batch_size : ℕ) (perm : List ℕ) :
    (epochBatches N batch_size perm).flatten =
      perm.take (N / batch_size * batch_size) := by
  rw [epochBatches]
  generalize N / batch_size = n
  induction n with
  | zero => simp
  | succ n ih =>
      rw [List.range_succ, List.map_append, List.flatten_append, ih]
      simp [Nat.succ_mul, List.take_add]

/-- Claim C7: one training epoch on `N` instances slices the epoch's
permutation into exactly `N // batch_size` contiguous mini-batches of
exactly `batch_size` indices each, drops the remaining
`N mod batch_size` permuted indices, calls `update` once per mini-batch
in order (and `train` is one such epoch per permutation draw); within
one epoch the mini-batches are pairwise disjoint and each is free of
repeated indices. -/
theorem claim_C7 (e : ℚ → ℚ) (x : Mat) (y : List ℕ) (batch_size : ℕ)
    (learning_rate : ℚ) (m : MLP) (perm : List ℕ)
    (hnd : perm.Nodup) (hlen : perm.length = x.length) :
    trainEpoch e x y batch_size learning_rate m perm =
      (epochBatches x.length batch_size perm).foldlM
        (fun m idxs => MLP.update e m (selectRows x idxs) (selectLabels y idxs)
          learning_rate) m
    ∧ (∀ perms, MLP.train e m x y perms batch_size learning_rate =
        perms.foldlM (trainEpoch e x y batch_size learning_rate) m)
    ∧ (epochBatches x.length batch_size perm).length = x.length / batch_size
    ∧ (∀ bjs ∈ epochBatches x.length batch_size perm,
        bjs.length = batch_size ∧ bjs.Nodup)
    ∧ List.Pairwise (fun b₁ b₂ => ∀ t ∈ b₁, t ∉ b₂)
        (epochBatches x.length batch_size perm)
    ∧ (epochBatches x.length batch_size perm).flatten =
        perm.take (x.length / batch_size * batch_size) := by
  refine ⟨trainEpoch_eq_foldlM e x y batch_size learning_rate m perm,
    fun perms => rfl,
    epochBatches_length x.length batch_size perm, ?_,
    epochBatches_pairwise_disjoint hnd,
    epochBatches_join x.length batch_size perm⟩
  intro bjs hb
  exact ⟨mem_epochBatches_length hlen hb,
    (mem_epochBatches_sublist hb).nodup hnd⟩

/-- Concrete instance of claim C7: for `N = 2000` and `batch_size = 200`,
an epoch produces exactly 10 mini-batches. -/
theorem claim_C7_witness :
    (List.range 2000).Nodup ∧
    (epochBatches (List.replicate 2000 ([] : List ℚ)).length 200
      (List.range 2000)).length = 10 := by
  refine ⟨List.nodup_range 2000, ?_⟩
  have h := (claim_C7 (fun q => q) (List.replicate 2000 []) [] 200 0 ⟨0, []⟩
    (List.range 2000) (List.nodup_range 2000)
    (by rw [List.length_range, List.length_replicate])).2.2.1
  rw [h, List.length_replicate]
